import Mathlib

/-!
A shallow embedding of the TensorRT dynamo export subsystem of this
repository: `py/torch_tensorrt/dynamo/_exporter.py` (graph rewriting:
engine inlining, torch-submodule inlining, constant lifting, export
dispatch) and `py/torch_tensorrt/dynamo/runtime/_TorchTensorRTModule.py`
(runtime wrapper: construction, forward, binding-name packing).

An fx graph is modelled as an ordered list of nodes; a node's argument
references are the names of the referenced nodes; the "users" of a node
are (as in fx, where the user set is maintained as an invariant) exactly
the nodes whose arguments mention it, in graph order.
-/

namespace TRT

/-- Call-function targets that the exporter distinguishes:
`torch.ops.tensorrt.execute_engine.default`, `operator.getitem`, and
anything else (tagged with an opaque string). -/
inductive Func where
  | execute_engine
  | getitem
  | other (tag : String)
deriving DecidableEq

/-- Kinds of fx graph nodes (`node.op`). -/
inductive Op where
  | placeholder
  | get_attr
  | call_module
  | call_function (f : Func)
  | output
deriving DecidableEq

/-- The "val" metadata entry of a node: absent, a single fake tensor
(recorded by its shape), or a list of fake tensors (as synthesized on the
engine-call node in `inline_trt_modules`). -/
inductive MetaVal where
  | none
  | tensor (shape : List Nat)
  | tensors (shapes : List (List Nat))
deriving DecidableEq

/-- Length of a "val" metadata list; a single tensor or an absent entry is
not a list. -/
def MetaVal.listLen : MetaVal → Nat
  | MetaVal.tensors shapes => shapes.length
  | _ => 0

/-- An fx node: unique name, op kind, argument references (names of other
nodes), the attribute target (for get_attr / placeholder nodes), the
integer index argument of a `getitem` node, and the "val" metadata. -/
structure Node where
  name : String
  op : Op
  args : List String := []
  target : String := ""
  itemIdx : Nat := 0
  meta_val : MetaVal := MetaVal.none
deriving DecidableEq

/-- A graph is an ordered list of nodes (fx keeps nodes in a linked list;
insertion position matters). -/
abbrev Graph := List Node

/-- The users of node `t` in graph order: exactly the nodes whose argument
list mentions `t` (fx maintains `node.users` as this invariant). -/
def usersOf (g : Graph) (t : String) : List Node :=
  g.filter (fun m => decide (t ∈ m.args))

/-- Rename the argument references of one node: every reference to `old`
becomes a reference to `nu`; name, op, metadata and the getitem index are
untouched. -/
def renameArgs (old nu : String) (m : Node) : Node :=
  { m with args := m.args.map (fun a => if a = old then nu else a) }

/-- Embedding of `node.replace_all_uses_with(new)`: every argument
reference to `old` anywhere in the graph becomes a reference to `nu`. -/
def replaceAllUses (g : Graph) (old nu : String) : Graph :=
  g.map (renameArgs old nu)

/-- Embedding of `graph.erase_node` (in fx this requires that the erased
node has no remaining users; the exporter always erases nodes right after
redirecting all their uses). -/
def eraseNode (g : Graph) (n : String) : Graph :=
  g.filter (fun m => decide (m.name ≠ n))

/-- Embedding of `graph.inserting_before(pos)` + node creation: insert `x`
immediately before the (first) node named `pos`. -/
def insertBefore : Graph → String → Node → Graph
  | [], _, x => [x]
  | n :: rest, pos, x =>
    if n.name = pos then x :: n :: rest else n :: insertBefore rest pos x

/-- Embedding of `graph.inserting_after(pos)` + node creation: insert `x`
immediately after the (first) node named `pos`. -/
def insertAfter : Graph → String → Node → Graph
  | [], _, x => [x]
  | n :: rest, pos, x =>
    if n.name = pos then n :: x :: rest else n :: insertAfter rest pos x

/-- Insert a whole list of nodes immediately before the (first) node named
`pos` (the net effect of creating several nodes inside one
`inserting_before` context, as `graph_copy` does). -/
def insertAllBefore : Graph → String → List Node → Graph
  | [], _, xs => xs
  | n :: rest, pos, xs =>
    if n.name = pos then xs ++ n :: rest else n :: insertAllBefore rest pos xs

/-- Embedding of the metadata backfill loop of `inline_trt_modules`
(multi-output case): enumerate the users of the engine node `trt` in
order and assign the `k`-th user the engine node's `k`-th metadata entry
(`getitem_node.meta["val"] = trt_node.meta["val"][idx]`); a missing entry
is a Python IndexError, modelled as failure. -/
def backfill_go (trt : String) (shapes : List (List Nat)) :
    List Node → Nat → Option (List Node)
  | [], _ => some []
  | m :: rest, k =>
    if trt ∈ m.args then
      match shapes.get? k with
      | Option.none => Option.none
      | some s =>
        (backfill_go trt shapes rest (k + 1)).map
          (fun r => { m with meta_val := MetaVal.tensor s } :: r)
    else (backfill_go trt shapes rest k).map (fun r => m :: r)

/-- The per-node effect of the metadata backfill loop: a user of the
engine node `trt` receives the engine metadata entry at its own getitem
index (this characterizes `backfill_go` when the users appear in index
order); any other node is untouched. -/
def annotate (trt : String) (shapes : List (List Nat)) (m : Node) : Node :=
  if trt ∈ m.args then
    { m with meta_val := MetaVal.tensor (shapes.getD m.itemIdx []) }
  else m

/-- Embedding of one iteration of the `inline_trt_modules` loop
(`_exporter.py`, lines 330-379) for the accelerated submodule called by
the node named `name`, whose declared per-output shapes are `shapes`
(`outputs_map[name]`).  The fresh names fx would generate for the two
created nodes are taken as parameters `trtName` / `getName`.  The three
source assertions (node found, node has arguments, at least one output)
are modelled as `Option.none`. -/
def inline_trt_module (g : Graph) (name : String) (shapes : List (List Nat))
    (trtName getName : String) : Option Graph :=
  match g.find? (fun m => decide (m.name = name)) with
  | Option.none => Option.none
  | some tmn =>
    if tmn.args = [] then Option.none
    else if shapes.length = 0 then Option.none
    else
      let trtNode : Node :=
        { name := trtName, op := Op.call_function Func.execute_engine,
          args := tmn.args, meta_val := MetaVal.tensors shapes }
      let g1 := insertBefore g name trtNode
      if shapes.length = 1 then
        let gi : Node :=
          { name := getName, op := Op.call_function Func.getitem,
            args := [trtName], itemIdx := 0, meta_val := MetaVal.tensors shapes }
        let g2 := insertAfter g1 trtName gi
        let g3 := replaceAllUses g2 name getName
        some (eraseNode g3 name)
      else
        let g2 := replaceAllUses g1 name trtName
        match backfill_go trtName shapes g2 0 with
        | Option.none => Option.none
        | some g3 => some (eraseNode g3 name)

/-- Embedding of `get_duplicate_nodes` (`_exporter.py`, lines 155-175):
submodule-side placeholders whose names occur among the parent graph's
node names, and parent-side nodes whose names occur among the submodule's
placeholder names. -/
def get_duplicate_nodes (gm sub : Graph) : List Node × List Node :=
  let subPh := sub.filter (fun n => decide (n.op = Op.placeholder))
  let subPhNames := subPh.map Node.name
  let gmNames := gm.map Node.name
  (subPh.filter (fun n => decide (n.name ∈ gmNames)),
   gm.filter (fun n => decide (n.name ∈ subPhNames)))

/-- Resolve a name through the `val_map` used by `graph_copy`: duplicate
submodule nodes map to their parent counterparts, all other (copied)
nodes keep their names. -/
def lookupOr (m : List (String × String)) (k : String) : String :=
  match m.find? (fun p => decide (p.1 = k)) with
  | some p => p.2
  | Option.none => k

/-- Sequentially redirect uses according to an association list (the
per-index `replace_all_uses_with` loop of the no-duplicates branch). -/
def replaceManyUses : Graph → List (String × String) → Graph
  | g, [] => g
  | g, (o, nu) :: rest => replaceManyUses (replaceAllUses g o nu) rest

/-- Erase every node whose name occurs in `names` (the per-index
`erase_node` loop of the no-duplicates branch). -/
def eraseMany (g : Graph) (names : List String) : Graph :=
  g.filter (fun m => decide (m.name ∉ names))

/-- Embedding of one iteration of the `inline_torch_modules` loop
(`_exporter.py`, lines 187-242) for the host-executed submodule `sub`
called by the parent node named `gmNodeName`.  `graph_copy` is rendered
as: copy every non-output submodule node that is not a duplicate input,
with argument references resolved through the duplicate map, inserted
before the call-module node; copied nodes keep their names (fx would
uniquify on collision).  The source `assert` statements and the implicit
failure when the submodule has no output are modelled as `Option.none`.
The state-dict surgery (`copy_submodule_attributes`) does not touch the
graph and is not modelled. -/
def inline_torch_module (gm sub : Graph) (gmNodeName : String) : Option Graph :=
  match gm.find? (fun m => decide (m.name = gmNodeName)) with
  | Option.none => Option.none
  | some gmNode =>
    let dup := get_duplicate_nodes gm sub
    if dup.1.length = dup.2.length then
      let valMap := (dup.1.map Node.name).zip (dup.2.map Node.name)
      let dupNames := dup.1.map Node.name
      let copied := (sub.filter
          (fun n => decide (n.op ≠ Op.output ∧ n.name ∉ dupNames))).map
        (fun n => { n with args := n.args.map (lookupOr valMap) })
      let gm1 := insertAllBefore gm gmNodeName copied
      match sub.find? (fun n => decide (n.op = Op.output)) with
      | Option.none => Option.none
      | some outNode =>
        match outNode.args.head? with
        | Option.none => Option.none
        | some outRef =>
          let outName := lookupOr valMap outRef
          if dup.1.length = 0 then
            let subPhNames :=
              (sub.filter (fun n => decide (n.op = Op.placeholder))).map Node.name
            let added := gm1.filter (fun m => decide (m.name ∈ subPhNames))
            if added.length = gmNode.args.length then
              let gm2 := replaceManyUses gm1 ((added.map Node.name).zip gmNode.args)
              let gm3 := eraseMany gm2 (added.map Node.name)
              let gm4 := replaceAllUses gm3 gmNodeName outName
              some (eraseNode gm4 gmNodeName)
            else Option.none
          else
            let gm2 := replaceAllUses gm1 gmNodeName outName
            some (eraseNode gm2 gmNodeName)
    else Option.none

/-- Input-spec kinds of `torch.export.exported_program.InputKind` used by
the exporter. -/
inductive InputKind where
  | USER_INPUT
  | PARAMETER
  | BUFFER
  | CONSTANT_TENSOR
deriving DecidableEq

/-- An entry of `graph_signature.input_specs`: kind, the placeholder
(argument) name, and the optional source target. -/
structure InputSpec where
  kind : InputKind
  argName : String
  target : Option String
deriving DecidableEq

/-- Embedding of the input-kind classification inside `lift`
(`_exporter.py`, lines 113-124): the kind starts as CONSTANT_TENSOR, the
parameter loop overwrites it with PARAMETER on a match, then the buffer
loop overwrites it with BUFFER on a match (the loops are sequential, the
second is not guarded by the first). -/
def classify (params buffers : List String) (target : String) : InputKind :=
  let k0 := InputKind.CONSTANT_TENSOR
  let k1 := if target ∈ params then InputKind.PARAMETER else k0
  if target ∈ buffers then InputKind.BUFFER else k1

/-- Classification as the spec words it, for comparison with `classify`:
probe in order — parameter, else buffer, else constant tensor. -/
def probe_classify (params buffers : List String) (target : String) : InputKind :=
  if target ∈ params then InputKind.PARAMETER
  else if target ∈ buffers then InputKind.BUFFER
  else InputKind.CONSTANT_TENSOR

/-- Insertion at an index, clamped at the end (Python `list.insert`). -/
def insertAt {α : Type} : Nat → α → List α → List α
  | 0, a, l => a :: l
  | _ + 1, a, [] => [a]
  | n + 1, a, x :: l => x :: insertAt n a l

/-- The error message raised by `lift` for a get_attr target missing from
the state dict (`_exporter.py`, lines 108-110). -/
def lift_err_msg (n : Node) : String :=
  "The get_attr node : " ++ n.name ++ " with target: " ++ n.target ++
    " value could not be found in state_dict. Please check the input exported_program's graphmodule parameters."

/-- The input spec `lift` inserts for a lifted get_attr node: the new
placeholder is created with the node's target as its name, and the spec
records the classified kind and the target. -/
def lift_spec_of (params buffers : List String) (n : Node) : InputSpec :=
  { kind := classify params buffers n.target, argName := n.target,
    target := some n.target }

/-- Embedding of the signature-building part of `lift` (`_exporter.py`,
lines 104-147): walk the graph nodes in order; for every get_attr node,
fail if its target is not a state-dict key, otherwise insert the
classified input spec at position `non_user_input_idx` (a running counter
starting at 0, incremented per lifted node) into the signature's
input-spec list.  `state_dict`, `params` and `buffers` are the key lists
of `gm.state_dict()`, `gm.named_parameters()` and `gm.named_buffers()`.
The graph-side replacement of each get_attr node by a placeholder
inserted before the first user input does not affect the spec list and is
not needed by any property below. -/
def lift (state_dict params buffers : List String) :
    List Node → List InputSpec → Nat → Except String (List InputSpec)
  | [], specs, _ => Except.ok specs
  | n :: rest, specs, idx =>
    if n.op = Op.get_attr then
      if n.target ∈ state_dict then
        lift state_dict params buffers rest
          (insertAt idx (lift_spec_of params buffers n) specs) (idx + 1)
      else Except.error (lift_err_msg n)
    else lift state_dict params buffers rest specs idx

/-- The initial input specs built by `create_trt_exp_program` before
`lift` runs: one USER_INPUT spec per placeholder node, in graph order. -/
def user_input_specs (g : Graph) : List InputSpec :=
  (g.filter (fun n => decide (n.op = Op.placeholder))).map
    (fun n => { kind := InputKind.USER_INPUT, argName := n.name,
                target := some n.target })

/-- The three possible results of the top-level `export` dispatch; the
torchscript and exported-program payloads are produced by the opaque
collaborators `torch.jit.trace` and `transform` + `create_trt_exp_program`,
taken as function parameters. -/
inductive ExportOutput (α : Type) where
  | torchscript_mod (traced : α)
  | exported_prog (prog : α)
  | graph_mod (gm : α)
deriving DecidableEq

/-- The ValueError message of the `export` dispatch (`_exporter.py`,
lines 39-41). -/
def invalid_format_msg (fmt : String) : String :=
  "Invalid output format " ++ fmt ++
    " specified. Supported options include exported_program (or) ep | torchscript (or) ts | graph_module (or) fx"

/-- Embedding of the `export` entry point (`_exporter.py`, lines 18-41):
dispatch on the output-format string; `export` is a Lean keyword, hence
the `_fn` suffix. -/
def export_fn {α : Type} (gm : α) (jit_trace : α → α) (create_exp : α → α)
    (output_format : String) : Except String (ExportOutput α) :=
  if output_format = "torchscript" ∨ output_format = "ts" then
    Except.ok (ExportOutput.torchscript_mod (jit_trace gm))
  else if output_format = "exported_program" ∨ output_format = "ep" then
    Except.ok (ExportOutput.exported_prog (create_exp gm))
  else if output_format = "graph_module" ∨ output_format = "fx" then
    Except.ok (ExportOutput.graph_mod gm)
  else
    Except.error (invalid_format_msg output_format)

/-- The accepted output-format strings of `export`. -/
def valid_formats : List String :=
  ["exported_program", "ep", "torchscript", "ts", "graph_module", "fx"]

/-- Embedding of `TorchTensorRTModule._pack_binding_names`
(`_TorchTensorRTModule.py`, lines 254-258): join the binding names (as
character lists) with the single reserved delimiter character obtained
from the runtime (Python `delim.join(binding_names)`). -/
def pack_binding_names (delim : Char) : List (List Char) → List Char
  | [] => []
  | [n] => n
  | n :: rest => n ++ delim :: pack_binding_names delim rest

/-- Modelled from the spec: the unpacking counterpart of
`_pack_binding_names` lives in the closed-source C++ runtime, not under
`src/`; the spec says "unpacking must split on the same delimiter", so
this is Python `str.split(sep)` semantics on character lists (an empty
input yields one empty field, a delimiter occurrence always separates two
fields). -/
def split_on_delim (delim : Char) : List Char → List (List Char)
  | [] => [[]]
  | c :: cs =>
    if c = delim then [] :: split_on_delim delim cs
    else
      match split_on_delim delim cs with
      | [] => [[c]]
      | r :: rs => (c :: r) :: rs

/-- A dynamically typed Python value, as far as the runtime module's
constructor inspects one. -/
inductive PyObj where
  | pynone
  | pybytes (data : List Nat)
  | bytearr (data : List Nat)
  | pystr (s : String)
deriving DecidableEq

/-- Python `isinstance(x, bytearray)`. -/
def isinstance_bytearray : PyObj → Bool
  | PyObj.bytearr _ => true
  | _ => false

/-- The 8-field record handed to `torch.classes.tensorrt.Engine`
(`_TorchTensorRTModule.py`, lines 110-122); the serialized engine value
is stored exactly as passed. -/
structure Engine where
  abi_version : String
  engine_name : String
  device_info : String
  serialized : PyObj
  in_bindings : List Char
  out_bindings : List Char
  hw_compatible : String
  metadata : String
deriving DecidableEq

/-- The state of a `TorchTensorRTModule` relevant to construction and
`forward`. -/
structure TRTModule where
  mod_name : String
  input_binding_names : List (List Char)
  output_binding_names : List (List Char)
  hardware_compatible : Bool
  engine : Option Engine
deriving DecidableEq

/-- Embedding of `TorchTensorRTModule.__init__`
(`_TorchTensorRTModule.py`, lines 53-124).  Source lines 95-96 read
`if not isinstance(serialized_engine, bytearray): ValueError(...)`: the
ValueError is constructed and immediately discarded, never raised; the
discarded value is kept here as `_typecheck_discarded`.  The opaque
device / ABI / metadata strings are parameters. -/
def TorchTensorRTModule_init (delim : Char) (serialized_engine : PyObj)
    (name : String)
    (input_binding_names output_binding_names : Option (List (List Char)))
    (hw_compatible : Bool) (device_info abi_version metadata : String) :
    Except String TRTModule :=
  let _typecheck_discarded : Option String :=
    if isinstance_bytearray serialized_engine then Option.none
    else some "Expected serialized engine as bytearray"
  let ibn := input_binding_names.getD []
  let obn := output_binding_names.getD []
  let eng : Option Engine :=
    if serialized_engine ≠ PyObj.pynone then
      some { abi_version := abi_version
             engine_name := if name ≠ "" then name ++ "_engine" else "tensorrt_engine"
             device_info := device_info
             serialized := serialized_engine
             in_bindings := pack_binding_names delim ibn
             out_bindings := pack_binding_names delim obn
             hw_compatible := if hw_compatible then "1" else "0"
             metadata := metadata }
    else Option.none
  Except.ok { mod_name := name, input_binding_names := ibn,
              output_binding_names := obn, hardware_compatible := hw_compatible,
              engine := eng }

/-- The value returned by `forward`: a bare tensor or a tuple of
tensors. -/
inductive ForwardOut (τ : Type) where
  | single (t : τ)
  | tup (ts : List τ)
deriving DecidableEq

/-- Embedding of `TorchTensorRTModule.forward`
(`_TorchTensorRTModule.py`, lines 178-210).  The engine-execution
collaborator `torch.ops.tensorrt.execute_engine` and the per-input
`torch.as_tensor(i).cuda()` cast are opaque parameters. -/
def TorchTensorRTModule_forward {α τ : Type}
    (execute_engine : List τ → Engine → List τ) (as_tensor_cuda : α → τ)
    (m : TRTModule) (inputs : List α) : Except String (ForwardOut τ) :=
  match m.engine with
  | Option.none => Except.error "Engine has not been initialized yet."
  | some eng =>
    if inputs.length = m.input_binding_names.length then
      let input_tensors := inputs.map as_tensor_cuda
      let outputs := execute_engine input_tensors eng
      if h : outputs.length = 1 then
        Except.ok (ForwardOut.single (outputs.get ⟨0, by omega⟩))
      else Except.ok (ForwardOut.tup outputs)
    else Except.error "Wrong number of inputs."

/-- A concrete graph for evaluating `lift`: a constant get_attr node, a
parameter get_attr node, and one user-input placeholder, in that graph
order. -/
def c1_nodes : List Node :=
  [{ name := "c", op := Op.get_attr, target := "c" },
   { name := "p", op := Op.get_attr, target := "p" },
   { name := "x", op := Op.placeholder, target := "x" }]

/-- The initial signature for `c1_nodes` as `create_trt_exp_program`
builds it: one USER_INPUT spec per placeholder. -/
def c1_specs : List InputSpec :=
  [{ kind := InputKind.USER_INPUT, argName := "x", target := some "x" }]

/-- A concrete get_attr node whose target names a parameter. -/
def c3_node : Node := { name := "p", op := Op.get_attr, target := "p" }

/-- A concrete parent graph with one accelerated call-module node "m"
(one user: the output node). -/
def c4_graph : Graph :=
  [{ name := "x", op := Op.placeholder, target := "x" },
   { name := "m", op := Op.call_module, args := ["x"] },
   { name := "out", op := Op.output, args := ["m"] }]

/-- The call-module node of `c4_graph`. -/
def c4_tmn : Node := { name := "m", op := Op.call_module, args := ["x"] }

/-- A concrete parent graph with a two-output accelerated call-module node
"m" whose users are the two partitioner-created getitem nodes, in index
order. -/
def c2_graph : Graph :=
  [{ name := "x", op := Op.placeholder, target := "x" },
   { name := "m", op := Op.call_module, args := ["x"] },
   { name := "i0", op := Op.call_function Func.getitem, args := ["m"],
     itemIdx := 0 },
   { name := "i1", op := Op.call_function Func.getitem, args := ["m"],
     itemIdx := 1 },
   { name := "out", op := Op.output, args := ["i0", "i1"] }]

/-- The call-module node of `c2_graph`. -/
def c2_tmn : Node := { name := "m", op := Op.call_module, args := ["x"] }

/-- A concrete parent graph whose host-executed call-module node "gpu1"
is fed by the parent's own placeholder "x". -/
def c7_gm : Graph :=
  [{ name := "x", op := Op.placeholder, target := "x" },
   { name := "gpu1", op := Op.call_module, args := ["x"] },
   { name := "out", op := Op.output, args := ["gpu1"] }]

/-- A concrete host-executed submodule whose sole input placeholder
shares the name "x" with the parent's placeholder. -/
def c7_sub : Graph :=
  [{ name := "x", op := Op.placeholder, target := "x" },
   { name := "add", op := Op.call_function (Func.other "add"), args := ["x"] },
   { name := "o", op := Op.output, args := ["add"] }]

/-- The call-module node of `c7_gm`. -/
def c7_gmNode : Node := { name := "gpu1", op := Op.call_module, args := ["x"] }

/-- A concrete engine record used to evaluate `forward` on a concrete
module. -/
def c10_engine : Engine :=
  { abi_version := "", engine_name := "", device_info := "",
    serialized := PyObj.pynone, in_bindings := [], out_bindings := [],
    hw_compatible := "", metadata := "" }

/-- A concrete runtime module with one input binding and an initialized
engine. -/
def c10_module : TRTModule :=
  { mod_name := "", input_binding_names := [['x']],
    output_binding_names := [], hardware_compatible := false,
    engine := some c10_engine }

/-! Theorems. -/

/-- Claim C5: the `export` entry point accepts exactly the output-format
strings "exported_program"/"ep", "torchscript"/"ts" and
"graph_module"/"fx"; for every other string it fails with the descriptive
value error (never silently defaulting), and for "graph_module"/"fx" it
returns the input graph module unchanged. -/
theorem export_dispatch_formats {α : Type} (gm : α) (jt ce : α → α)
    (fmt : String) :
    (fmt ∈ valid_formats →
      ∃ r, export_fn gm jt ce fmt = Except.ok r) ∧
    (fmt ∉ valid_formats →
      export_fn gm jt ce fmt = Except.error (invalid_format_msg fmt)) ∧
    ((fmt = "graph_module" ∨ fmt = "fx") →
      export_fn gm jt ce fmt = Except.ok (ExportOutput.graph_mod gm)) := by
  refine ⟨?_, ?_, ?_⟩
  · intro h
    simp only [valid_formats, List.mem_cons, List.not_mem_nil, or_false] at h
    unfold export_fn
    rcases h with h | h | h | h | h | h <;> subst h <;> simp
  · intro h
    simp only [valid_formats, List.mem_cons, List.not_mem_nil, or_false,
      not_or] at h
    obtain ⟨h1, h2, h3, h4, h5, h6⟩ := h
    unfold export_fn
    simp [h1, h2, h3, h4, h5, h6]
  · intro h
    unfold export_fn
    rcases h with h | h <;> subst h <;> simp

/-- Witness for C5: the "fx" format returns the module unchanged and an
unrecognized format yields the value error. -/
theorem export_dispatch_formats_witness :
    export_fn (0 : Nat) id id "fx" = Except.ok (ExportOutput.graph_mod 0) ∧
    export_fn (0 : Nat) id id "onnx" = Except.error (invalid_format_msg "onnx") :=
  ⟨(export_dispatch_formats 0 id id "fx").2.2 (Or.inr rfl),
   (export_dispatch_formats 0 id id "onnx").2.1 (by decide)⟩

theorem split_on_delim_ne_nil (d : Char) (l : List Char) :
    split_on_delim d l ≠ [] := by
  cases l with
  | nil => simp [split_on_delim]
  | cons c cs =>
    unfold split_on_delim
    by_cases h : c = d
    · simp [h]
    · simp only [if_neg h]
      cases hs : split_on_delim d cs <;> simp

theorem split_on_delim_single (d : Char) (n : List Char) (hd : d ∉ n) :
    split_on_delim d n = [n] := by
  induction n with
  | nil => rfl
  | cons c cs ih =>
    have hc : c ≠ d := fun h => hd (h ▸ List.mem_cons_self c cs)
    have hd' : d ∉ cs := fun h => hd (List.mem_cons_of_mem c h)
    unfold split_on_delim
    rw [if_neg hc, ih hd']

theorem split_on_delim_append (d : Char) (n t : List Char) (hd : d ∉ n) :
    split_on_delim d (n ++ d :: t) = n :: split_on_delim d t := by
  induction n with
  | nil => simp [split_on_delim]
  | cons c cs ih =>
    have hc : c ≠ d := fun h => hd (h ▸ List.mem_cons_self c cs)
    have hd' : d ∉ cs := fun h => hd (List.mem_cons_of_mem c h)
    rw [List.cons_append]
    simp only [split_on_delim]
    rw [if_neg hc, ih hd']

/-- Claim C6 counterexample: for the empty binding-name list (which
vacuously contains no name mentioning the delimiter), packing yields the
empty string and splitting that yields one empty field, not the original
empty list — Python `"".join([]) == ""` but `"".split(d) == [""]`. -/
theorem pack_unpack_empty_counterexample :
    split_on_delim '%' (pack_binding_names '%' []) = [[]] ∧
    ([[]] : List (List Char)) ≠ [] :=
  ⟨rfl, by simp⟩

/-- Claim C6 (amended): for every NONEMPTY list of binding names none of
which contains the reserved delimiter character, splitting the result of
`_pack_binding_names` on that delimiter yields the original list. -/
theorem pack_unpack_roundtrip (d : Char) (names : List (List Char))
    (hne : names ≠ []) (hdel : ∀ n ∈ names, d ∉ n) :
    split_on_delim d (pack_binding_names d names) = names := by
  induction names with
  | nil => exact absurd rfl hne
  | cons n rest ih =>
    cases rest with
    | nil => exact split_on_delim_single d n (hdel n (by simp))
    | cons m rest2 =>
      have hpack : pack_binding_names d (n :: m :: rest2) =
          n ++ d :: pack_binding_names d (m :: rest2) := rfl
      rw [hpack, split_on_delim_append d n _ (hdel n (by simp)),
        ih (by simp) (fun x hx => hdel x (List.mem_cons_of_mem n hx))]

/-- Witness for the amended C6 at a concrete name list and delimiter. -/
theorem pack_unpack_roundtrip_witness :
    split_on_delim '%' (pack_binding_names '%' [['x'], ['y', '0']]) =
      [['x'], ['y', '0']] :=
  pack_unpack_roundtrip '%' [['x'], ['y', '0']] (by simp) (by decide)

/-- Claim C9: the constructor never raises on a serialized_engine value
that is not a bytearray — the type check constructs a ValueError without
raising it — and every non-None serialized_engine value, of any type, is
passed through to engine construction unchecked. -/
theorem init_never_raises (delim : Char) (v : PyObj) (name : String)
    (ibn obn : Option (List (List Char))) (hw : Bool)
    (dev abi md : String) :
    (∃ m, TorchTensorRTModule_init delim v name ibn obn hw dev abi md =
      Except.ok m) ∧
    (v ≠ PyObj.pynone →
      ∃ m e, TorchTensorRTModule_init delim v name ibn obn hw dev abi md =
          Except.ok m ∧ m.engine = some e ∧ e.serialized = v) := by
  constructor
  · exact ⟨_, rfl⟩
  · intro hv
    have h : TorchTensorRTModule_init delim v name ibn obn hw dev abi md =
        Except.ok
          { mod_name := name, input_binding_names := ibn.getD [],
            output_binding_names := obn.getD [], hardware_compatible := hw,
            engine := some { abi_version := abi,
                             engine_name := if name ≠ "" then name ++ "_engine"
                               else "tensorrt_engine",
                             device_info := dev, serialized := v,
                             in_bindings := pack_binding_names delim (ibn.getD []),
                             out_bindings := pack_binding_names delim (obn.getD []),
                             hw_compatible := if hw then "1" else "0",
                             metadata := md } } := by
      simp only [TorchTensorRTModule_init]
      rw [if_pos hv]
    exact ⟨_, _, h, rfl, rfl⟩

/-- Witness for C9: a string (neither bytearray nor None) is accepted
without error and stored in the engine record as passed. -/
theorem init_never_raises_witness :
    ∃ m e, TorchTensorRTModule_init '%' (PyObj.pystr "oops") "n"
        Option.none Option.none false "dev" "abi" "md" = Except.ok m ∧
      m.engine = some e ∧ e.serialized = PyObj.pystr "oops" :=
  (init_never_raises '%' (PyObj.pystr "oops") "n" Option.none Option.none
    false "dev" "abi" "md").2 (by decide)

/-- Claim C10: with an initialized engine and the correct number of
inputs, `forward` returns the single tensor itself when the
engine-execution collaborator returns a one-element list, and a tuple of
all outputs otherwise. -/
theorem forward_output_arity {α τ : Type} (ee : List τ → Engine → List τ)
    (asT : α → τ) (m : TRTModule) (inputs : List α) (eng : Engine)
    (heng : m.engine = some eng)
    (hlen : inputs.length = m.input_binding_names.length) :
    (∀ t : τ, ee (inputs.map asT) eng = [t] →
      TorchTensorRTModule_forward ee asT m inputs =
        Except.ok (ForwardOut.single t)) ∧
    ((ee (inputs.map asT) eng).length ≠ 1 →
      TorchTensorRTModule_forward ee asT m inputs =
        Except.ok (ForwardOut.tup (ee (inputs.map asT) eng))) := by
  constructor
  · intro t ht
    unfold TorchTensorRTModule_forward
    rw [heng]
    simp [hlen, ht]
  · intro hlen1
    unfold TorchTensorRTModule_forward
    rw [heng]
    simp [hlen, hlen1]

/-- Witness for C10 at a concrete module: a singleton engine result is
returned bare, a two-element result as a tuple. -/
theorem forward_output_arity_witness :
    TorchTensorRTModule_forward (τ := Nat) (fun _ _ => [42]) id c10_module
      [5] = Except.ok (ForwardOut.single 42) ∧
    TorchTensorRTModule_forward (τ := Nat) (fun _ _ => [7, 8]) id c10_module
      [5] = Except.ok (ForwardOut.tup [7, 8]) :=
  ⟨(forward_output_arity (α := Nat) (τ := Nat) (fun _ _ => [42]) id
      c10_module [5] c10_engine rfl rfl).1 42 rfl,
   (forward_output_arity (α := Nat) (τ := Nat) (fun _ _ => [7, 8]) id
      c10_module [5] c10_engine rfl rfl).2 (by decide)⟩

theorem insertAt_length_append {α : Type} (acc : List α) (a : α)
    (l : List α) : insertAt acc.length a (acc ++ l) = acc ++ a :: l := by
  induction acc with
  | nil => rfl
  | cons x xs ih => simp [insertAt, ih]

theorem classify_ne_user (ps bs : List String) (t : String) :
    classify ps bs t ≠ InputKind.USER_INPUT := by
  by_cases hb : t ∈ bs
  · simp [classify, hb]
  · by_cases hp : t ∈ ps <;> simp [classify, hb, hp]

theorem lift_go (sd ps bs : List String) (nodes : List Node) :
    ∀ (acc specs0 : List InputSpec),
      (∀ n ∈ nodes, n.op = Op.get_attr → n.target ∈ sd) →
      lift sd ps bs nodes (acc ++ specs0) acc.length =
        Except.ok (acc ++ (((nodes.filter
          (fun n => decide (n.op = Op.get_attr))).map
            (lift_spec_of ps bs)) ++ specs0)) := by
  induction nodes with
  | nil => intro acc specs0 _; simp [lift]
  | cons n rest ih =>
    intro acc specs0 hsd
    by_cases hop : n.op = Op.get_attr
    · have htar : n.target ∈ sd := hsd n (List.mem_cons_self n rest) hop
      have hf : (n :: rest).filter (fun m => decide (m.op = Op.get_attr)) =
          n :: rest.filter (fun m => decide (m.op = Op.get_attr)) := by
        simp [List.filter_cons, hop]
      have h2 := ih (acc ++ [lift_spec_of ps bs n]) specs0
        (fun m hm h => hsd m (List.mem_cons_of_mem n hm) h)
      simp only [List.append_assoc, List.singleton_append, List.length_append,
        List.length_cons, List.length_nil, Nat.zero_add] at h2
      simp only [lift, if_pos hop, if_pos htar, insertAt_length_append, hf,
        List.map_cons, List.cons_append]
      exact h2
    · have hf : (n :: rest).filter (fun m => decide (m.op = Op.get_attr)) =
          rest.filter (fun m => decide (m.op = Op.get_attr)) := by
        simp [List.filter_cons, hop]
      simp only [lift, if_neg hop, hf]
      exact ih acc specs0 (fun m hm h => hsd m (List.mem_cons_of_mem n hm) h)

/-- Claim C1 counterexample: in `c1_nodes` the get_attr nodes appear in
the graph order [constant "c", parameter "p"], so P = 1, B = 0, C = 1,
U = 1; the claim requires `input_specs[0]` to be of kind PARAMETER, but
lifting yields kinds [CONSTANT_TENSOR, PARAMETER, USER_INPUT]: the lifted
specs keep get_attr graph order, they are not grouped by kind. -/
theorem lift_input_specs_order_counterexample :
    c1_specs = user_input_specs c1_nodes ∧
    lift ["c", "p"] ["p"] [] c1_nodes c1_specs 0 =
      Except.ok
        [{ kind := InputKind.CONSTANT_TENSOR, argName := "c", target := some "c" },
         { kind := InputKind.PARAMETER, argName := "p", target := some "p" },
         { kind := InputKind.USER_INPUT, argName := "x", target := some "x" }] ∧
    ([{ kind := InputKind.CONSTANT_TENSOR, argName := "c", target := some "c" },
      { kind := InputKind.PARAMETER, argName := "p", target := some "p" },
      { kind := InputKind.USER_INPUT, argName := "x", target := some "x" }] :
        List InputSpec).take 1 ≠
      [{ kind := InputKind.PARAMETER, argName := "p", target := some "p" }] := by
  refine ⟨by decide, by rfl, by decide⟩

/-- Claim C1 (amended): after lifting, the signature's input_specs list is
exactly the P + B + C lifted specs — one per get_attr node, in the graph
order of those get_attr nodes, each carrying its classified non-user kind
(PARAMETER, BUFFER or CONSTANT_TENSOR) — followed by exactly the original
U user-input specs in their original relative order.  The lifted prefix
is not grouped as [parameters, buffers, constants]; the running insertion
index only guarantees that every lifted entry precedes the user inputs. -/
theorem lift_input_specs_structure (sd ps bs : List String)
    (nodes : List Node) (specs0 : List InputSpec)
    (hsd : ∀ n ∈ nodes, n.op = Op.get_attr → n.target ∈ sd) :
    lift sd ps bs nodes specs0 0 =
      Except.ok (((nodes.filter (fun n => decide (n.op = Op.get_attr))).map
        (lift_spec_of ps bs)) ++ specs0) ∧
    ∀ s ∈ (nodes.filter (fun n => decide (n.op = Op.get_attr))).map
        (lift_spec_of ps bs), s.kind ≠ InputKind.USER_INPUT := by
  constructor
  · simpa using lift_go sd ps bs nodes [] specs0 hsd
  · intro s hs
    obtain ⟨n, _, rfl⟩ := List.mem_map.mp hs
    exact classify_ne_user ps bs n.target

/-- Witness for the amended C1 at the concrete graph `c1_nodes`. -/
theorem lift_input_specs_structure_witness :
    lift ["c", "p"] ["p"] [] c1_nodes c1_specs 0 =
      Except.ok (((c1_nodes.filter (fun n => decide (n.op = Op.get_attr))).map
        (lift_spec_of ["p"] [])) ++ c1_specs) :=
  (lift_input_specs_structure ["c", "p"] ["p"] [] c1_nodes c1_specs
    (by decide)).1

/-- Claim C8: whenever some get_attr node's target is absent from the
flattened state dict, `lift` fails with the descriptive error naming the
offending node and its target (`lift_err_msg` embeds both) and produces
no lifted result, for any signature state and insertion index. -/
theorem lift_missing_target_errors (sd ps bs : List String) :
    ∀ (nodes : List Node) (specs0 : List InputSpec) (idx : Nat),
      (∃ n ∈ nodes, n.op = Op.get_attr ∧ n.target ∉ sd) →
      ∃ m ∈ nodes, m.op = Op.get_attr ∧ m.target ∉ sd ∧
        lift sd ps bs nodes specs0 idx = Except.error (lift_err_msg m) := by
  intro nodes
  induction nodes with
  | nil => intro specs0 idx h; simp at h
  | cons n rest ih =>
    intro specs0 idx hbad
    by_cases hop : n.op = Op.get_attr
    · by_cases htar : n.target ∈ sd
      · have hbad' : ∃ m ∈ rest, m.op = Op.get_attr ∧ m.target ∉ sd := by
          obtain ⟨m, hm, h1, h2⟩ := hbad
          rcases List.mem_cons.mp hm with h | h
          · exact absurd htar (h ▸ h2)
          · exact ⟨m, h, h1, h2⟩
        obtain ⟨m, hm, h1, h2, h3⟩ := ih _ _ hbad'
        refine ⟨m, List.mem_cons_of_mem n hm, h1, h2, ?_⟩
        simp only [lift, if_pos hop, if_pos htar]
        exact h3
      · exact ⟨n, List.mem_cons_self n rest, hop, htar, by
          simp only [lift, if_pos hop, if_neg htar]⟩
    · have hbad' : ∃ m ∈ rest, m.op = Op.get_attr ∧ m.target ∉ sd := by
        obtain ⟨m, hm, h1, h2⟩ := hbad
        rcases List.mem_cons.mp hm with h | h
        · exact absurd (h ▸ h1) hop
        · exact ⟨m, h, h1, h2⟩
      obtain ⟨m, hm, h1, h2, h3⟩ := ih _ _ hbad'
      refine ⟨m, List.mem_cons_of_mem n hm, h1, h2, ?_⟩
      simp only [lift, if_neg hop]
      exact h3

/-- Witness for C8: a graph with a get_attr node whose target "w" is
missing from the (empty) state dict fails with the error naming it. -/
theorem lift_missing_target_errors_witness :
    ∃ m ∈ [({ name := "w", op := Op.get_attr, target := "w" } : Node)],
      m.op = Op.get_attr ∧ m.target ∉ ([] : List String) ∧
      lift [] [] [] [({ name := "w", op := Op.get_attr, target := "w" } : Node)]
          [] 0 = Except.error (lift_err_msg m) :=
  lift_missing_target_errors [] [] []
    [({ name := "w", op := Op.get_attr, target := "w" } : Node)] [] 0
    (by decide)

/-- Claim C3: for every get_attr node processed by `lift` with its target
present in the state dict, the assigned kind follows the probe order —
PARAMETER if the target names a parameter, otherwise BUFFER if it names a
buffer, otherwise CONSTANT_TENSOR — and in particular a parameter target
is classified PARAMETER regardless of the later buffer probe.  The probes
come from `named_parameters()` / `named_buffers()`, whose fully qualified
key sets `torch.nn.Module` keeps disjoint; that disjointness is the
hypothesis (without it the sequential buffer loop of the source would
overwrite PARAMETER with BUFFER). -/
theorem lift_classify_probe_order (sd ps bs : List String)
    (nodes : List Node) (specs0 : List InputSpec) (n : Node)
    (hdisj : ∀ x ∈ ps, x ∉ bs)
    (hsd : ∀ m ∈ nodes, m.op = Op.get_attr → m.target ∈ sd)
    (hn : n ∈ nodes) (hop : n.op = Op.get_attr) :
    classify ps bs n.target = probe_classify ps bs n.target ∧
    (n.target ∈ ps → classify ps bs n.target = InputKind.PARAMETER) ∧
    ∃ res, lift sd ps bs nodes specs0 0 = Except.ok res ∧
      ({ kind := probe_classify ps bs n.target, argName := n.target,
         target := some n.target } : InputSpec) ∈ res := by
  have hcp : classify ps bs n.target = probe_classify ps bs n.target := by
    by_cases hp : n.target ∈ ps
    · have hb := hdisj _ hp
      simp [classify, probe_classify, hp, hb]
    · by_cases hb : n.target ∈ bs <;>
        simp [classify, probe_classify, hp, hb]
  refine ⟨hcp, fun hp => ?_, ?_⟩
  · rw [hcp]
    simp [probe_classify, hp]
  · refine ⟨_, by simpa using lift_go sd ps bs nodes [] specs0 hsd, ?_⟩
    apply List.mem_append_left
    have hsp : ({ kind := probe_classify ps bs n.target,
                  argName := n.target,
                  target := some n.target } : InputSpec) =
        lift_spec_of ps bs n := by
      simp [lift_spec_of, hcp]
    rw [hsp]
    exact List.mem_map_of_mem _ (List.mem_filter.mpr ⟨hn, by simp [hop]⟩)

theorem find?_split {p : Node → Bool} :
    ∀ {l : List Node} {x : Node}, l.find? p = some x →
      ∃ a b, l = a ++ x :: b ∧ (∀ y ∈ a, p y = false) ∧ p x = true := by
  intro l
  induction l with
  | nil => intro x h; simp [List.find?] at h
  | cons n rest ih =>
    intro x h
    cases hpn : p n with
    | true =>
      rw [List.find?_cons_of_pos _ hpn] at h
      obtain rfl := Option.some.inj h
      exact ⟨[], rest, rfl, by simp, hpn⟩
    | false =>
      rw [List.find?_cons_of_neg _ (by simp [hpn])] at h
      obtain ⟨a, b, rfl, ha, hx⟩ := ih h
      refine ⟨n :: a, b, rfl, ?_, hx⟩
      intro y hy
      rcases List.mem_cons.mp hy with h' | h'
      · rw [h']; exact hpn
      · exact ha y h'

theorem insertBefore_split (a : List Node) (t : Node) (b : List Node)
    (x : Node) (pos : String) (hpos : t.name = pos)
    (ha : ∀ y ∈ a, y.name ≠ pos) :
    insertBefore (a ++ t :: b) pos x = a ++ x :: t :: b := by
  induction a with
  | nil => simp [insertBefore, hpos]
  | cons y ys ih =>
    have hy : y.name ≠ pos := ha y (List.mem_cons_self y ys)
    simp only [List.cons_append, insertBefore, if_neg hy, List.append_eq]
    rw [ih (fun z hz => ha z (List.mem_cons_of_mem y hz))]

theorem insertAfter_split (a : List Node) (t : Node) (b : List Node)
    (x : Node) (pos : String) (hpos : t.name = pos)
    (ha : ∀ y ∈ a, y.name ≠ pos) :
    insertAfter (a ++ t :: b) pos x = a ++ t :: x :: b := by
  induction a with
  | nil => simp [insertAfter, hpos]
  | cons y ys ih =>
    have hy : y.name ≠ pos := ha y (List.mem_cons_self y ys)
    simp only [List.cons_append, insertAfter, if_neg hy, List.append_eq]
    rw [ih (fun z hz => ha z (List.mem_cons_of_mem y hz))]

theorem insertAllBefore_split (a : List Node) (t : Node) (b : List Node)
    (xs : List Node) (pos : String) (hpos : t.name = pos)
    (ha : ∀ y ∈ a, y.name ≠ pos) :
    insertAllBefore (a ++ t :: b) pos xs = a ++ xs ++ t :: b := by
  induction a with
  | nil => simp [insertAllBefore, hpos]
  | cons y ys ih =>
    have hy : y.name ≠ pos := ha y (List.mem_cons_self y ys)
    simp only [List.cons_append, insertAllBefore, if_neg hy, List.append_eq]
    rw [ih (fun z hz => ha z (List.mem_cons_of_mem y hz))]

theorem renameArgs_name (old nu : String) (m : Node) :
    (renameArgs old nu m).name = m.name := rfl

theorem renameArgs_op (old nu : String) (m : Node) :
    (renameArgs old nu m).op = m.op := rfl

theorem renameArgs_itemIdx (old nu : String) (m : Node) :
    (renameArgs old nu m).itemIdx = m.itemIdx := rfl

theorem renameArgs_meta_val (old nu : String) (m : Node) :
    (renameArgs old nu m).meta_val = m.meta_val := rfl

theorem map_args_self (old nu : String) (args : List String)
    (h : old ∉ args) :
    args.map (fun a => if a = old then nu else a) = args := by
  induction args with
  | nil => rfl
  | cons a as ih =>
    have ha : a ≠ old := fun he => h (by simp [he])
    have h' : old ∉ as := fun he => h (List.mem_cons_of_mem a he)
    simp [ha, ih h']

theorem renameArgs_eq_self (old nu : String) (m : Node) (h : old ∉ m.args) :
    renameArgs old nu m = m := by
  unfold renameArgs
  rw [map_args_self old nu m.args h]

theorem mem_args_rename_nu (old nu : String) (m : Node)
    (hfresh : nu ∉ m.args) :
    nu ∈ (renameArgs old nu m).args ↔ old ∈ m.args := by
  unfold renameArgs
  simp only [List.mem_map]
  constructor
  · rintro ⟨a, ha, he⟩
    by_cases hao : a = old
    · exact hao ▸ ha
    · rw [if_neg hao] at he
      exact absurd (he ▸ ha) hfresh
  · intro ho
    exact ⟨old, ho, by simp⟩

theorem not_mem_args_rename_old (old nu : String) (m : Node)
    (hne : nu ≠ old) :
    old ∉ (renameArgs old nu m).args := by
  unfold renameArgs
  simp only [List.mem_map, not_exists, not_and]
  intro a ha
  by_cases hao : a = old
  · rw [if_pos hao]; exact hne
  · rw [if_neg hao]; exact hao

theorem usersOf_append (g1 g2 : Graph) (t : String) :
    usersOf (g1 ++ g2) t = usersOf g1 t ++ usersOf g2 t := by
  simp [usersOf, List.filter_append]

theorem usersOf_cons_pos (m : Node) (g : Graph) (t : String)
    (h : t ∈ m.args) : usersOf (m :: g) t = m :: usersOf g t := by
  simp [usersOf, List.filter_cons, h]

theorem usersOf_cons_neg (m : Node) (g : Graph) (t : String)
    (h : t ∉ m.args) : usersOf (m :: g) t = usersOf g t := by
  simp [usersOf, List.filter_cons, h]

theorem usersOf_map_rename (g : Graph) (old nu : String)
    (hfresh : ∀ m ∈ g, nu ∉ m.args) :
    usersOf (g.map (renameArgs old nu)) nu =
      (usersOf g old).map (renameArgs old nu) := by
  induction g with
  | nil => rfl
  | cons m rest ih =>
    have hf := hfresh m (List.mem_cons_self m rest)
    have ih' := ih (fun x hx => hfresh x (List.mem_cons_of_mem m hx))
    by_cases ho : old ∈ m.args
    · rw [List.map_cons,
        usersOf_cons_pos _ _ _ ((mem_args_rename_nu old nu m hf).mpr ho),
        usersOf_cons_pos m rest old ho, List.map_cons, ih']
    · rw [List.map_cons,
        usersOf_cons_neg _ _ _
          (fun hx => ho ((mem_args_rename_nu old nu m hf).mp hx)),
        usersOf_cons_neg m rest old ho, ih']

theorem countP_op_map_rename (l : List Node) (old nu : String)
    (p : Op → Bool) :
    (l.map (renameArgs old nu)).countP (fun m => p m.op) =
      l.countP (fun m => p m.op) := by
  rw [List.countP_map]; rfl

theorem replaceAllUses_append3 (a : List Node) (n1 n2 t : Node)
    (b : List Node) (old nu : String) (h1 : old ∉ n1.args)
    (h2 : old ∉ n2.args) (h3 : old ∉ t.args) :
    replaceAllUses (a ++ n1 :: n2 :: t :: b) old nu =
      a.map (renameArgs old nu) ++ n1 :: n2 :: t ::
        b.map (renameArgs old nu) := by
  simp only [replaceAllUses, List.map_append, List.map_cons,
    renameArgs_eq_self old nu n1 h1, renameArgs_eq_self old nu n2 h2,
    renameArgs_eq_self old nu t h3]

theorem eraseNode_append2 (A : List Node) (n1 n2 t : Node) (B : List Node)
    (x : String) (hA : ∀ y ∈ A, y.name ≠ x) (h1 : n1.name ≠ x)
    (h2 : n2.name ≠ x) (ht : t.name = x) (hB : ∀ y ∈ B, y.name ≠ x) :
    eraseNode (A ++ n1 :: n2 :: t :: B) x = A ++ n1 :: n2 :: B := by
  unfold eraseNode
  have hAf : A.filter (fun m => decide (m.name ≠ x)) = A :=
    List.filter_eq_self.mpr (fun m hm => by simpa using hA m hm)
  rw [List.filter_append, hAf]
  simp [List.filter_cons, h1, h2, ht]
  exact fun a ha => hB a ha

theorem get?_append_cons {α : Type} (xs : List α) (y : α) (ys : List α) :
    (xs ++ y :: ys).get? xs.length = some y := by
  induction xs with
  | nil => rfl
  | cons x xs ih => simpa using ih

theorem get?_getD {α : Type} (l : List α) (n : Nat) (d : α)
    (h : n < l.length) : l.get? n = some (l.getD n d) := by
  induction l generalizing n with
  | nil => simp at h
  | cons x xs ih =>
    cases n with
    | zero => rfl
    | succ k => exact ih k (by simpa using h)

theorem lt_of_get?_eq_some {α : Type} (l : List α) (n : Nat) (x : α)
    (h : l.get? n = some x) : n < l.length := by
  by_contra hn
  rw [List.get?_eq_none.mpr (by omega)] at h
  exact Option.noConfusion h

theorem get?_mem_enumFrom {α : Type} :
    ∀ (l : List α) (i k : Nat) (x : α), l.get? k = some x →
      (i + k, x) ∈ l.enumFrom i := by
  intro l
  induction l with
  | nil => intro i k x h; simp at h
  | cons a as ih =>
    intro i k x h
    cases k with
    | zero =>
      obtain rfl := Option.some.inj h
      simp [List.enumFrom]
    | succ j =>
      have hm := ih (i + 1) j x h
      show (i + (j + 1), x) ∈ (i, a) :: as.enumFrom (i + 1)
      rw [show i + (j + 1) = (i + 1) + j by omega]
      exact List.mem_cons_of_mem _ hm

theorem get?_mem_enum {α : Type} (l : List α) (k : Nat) (x : α)
    (h : l.get? k = some x) : (k, x) ∈ l.enum := by
  have hm := get?_mem_enumFrom l 0 k x h
  simpa [List.enum] using hm

theorem get?_append_cons_succ {α : Type} (xs : List α) (y z : α)
    (ys : List α) : (xs ++ y :: z :: ys).get? (xs.length + 1) = some z := by
  induction xs with
  | nil => rfl
  | cons x xs ih => simpa using ih

theorem countP_op_pred_map_rename (l : List Node) (old nu : String)
    (o : Op) :
    (l.map (renameArgs old nu)).countP (fun m => decide (m.op = o)) =
      l.countP (fun m => decide (m.op = o)) := by
  rw [List.countP_map]; rfl

theorem map_name_map_rename (l : List Node) (old nu : String) :
    (l.map (renameArgs old nu)).map Node.name = l.map Node.name := by
  rw [List.map_map]; rfl

theorem countP_name_op_eq_zero (l : List Node) (x : String) (o : Op)
    (hl : ∀ y ∈ l, y.name ≠ x) :
    l.countP (fun m => decide (m.name = x ∧ m.op = o)) = 0 := by
  rw [List.countP_eq_zero]
  intro m hm
  simp [hl m hm]

/-- Claim C4: inlining an accelerated submodule with exactly one declared
output removes exactly one call-module node bearing that name, adds
exactly one execute-engine call-function node, adds exactly one
index-access node `engine_result[0]` placed immediately after the engine
node, and redirects every user of the old call-module node to that
index-access node (no reference to the old node survives, and the users
of the index-access node are by name exactly the old node's users).
The fresh node names fx would generate are parameters with freshness
hypotheses; name-uniqueness of the graph is the fx invariant. -/
theorem inline_trt_single_output (g : Graph) (name : String)
    (s0 : List Nat) (trtName getName : String) (tmn : Node)
    (hfind : g.find? (fun m => decide (m.name = name)) = some tmn)
    (hop : tmn.op = Op.call_module)
    (hargs : tmn.args ≠ [])
    (hnodup : (g.map Node.name).Nodup)
    (hfreshT : ∀ m ∈ g, m.name ≠ trtName ∧ trtName ∉ m.args)
    (hfreshG : ∀ m ∈ g, m.name ≠ getName ∧ getName ∉ m.args)
    (hTG : trtName ≠ getName)
    (hnoself : name ∉ tmn.args) :
    ∃ g', inline_trt_module g name [s0] trtName getName = some g' ∧
      g'.countP (fun m => decide (m.name = name ∧ m.op = Op.call_module)) + 1 =
        g.countP (fun m => decide (m.name = name ∧ m.op = Op.call_module)) ∧
      g'.countP (fun m => decide (m.op = Op.call_function Func.execute_engine)) =
        g.countP (fun m => decide (m.op = Op.call_function Func.execute_engine)) + 1 ∧
      g'.countP (fun m => decide (m.op = Op.call_function Func.getitem)) =
        g.countP (fun m => decide (m.op = Op.call_function Func.getitem)) + 1 ∧
      (∃ i tn gn, g'.get? i = some tn ∧ g'.get? (i + 1) = some gn ∧
        tn.name = trtName ∧ tn.op = Op.call_function Func.execute_engine ∧
        gn.name = getName ∧ gn.op = Op.call_function Func.getitem ∧
        gn.args = [trtName] ∧ gn.itemIdx = 0) ∧
      (∀ m ∈ g', name ∉ m.args) ∧
      (usersOf g' getName).map Node.name = (usersOf g name).map Node.name := by
  obtain ⟨a, b, hg, hA, hX⟩ := find?_split hfind
  subst hg
  have hname : tmn.name = name := by simpa using hX
  have hAname : ∀ y ∈ a, y.name ≠ name := fun y hy => by simpa using hA y hy
  have hmemA : ∀ y ∈ a, y ∈ a ++ tmn :: b := fun y hy =>
    List.mem_append_left _ hy
  have hmemB : ∀ y ∈ b, y ∈ a ++ tmn :: b := fun y hy =>
    List.mem_append_right _ (List.mem_cons_of_mem _ hy)
  have htmnmem : tmn ∈ a ++ tmn :: b :=
    List.mem_append_right _ (List.mem_cons_self _ _)
  have hnT : name ≠ trtName := hname ▸ (hfreshT tmn htmnmem).1
  have hnG : name ≠ getName := hname ▸ (hfreshG tmn htmnmem).1
  have hBname : ∀ y ∈ b, y.name ≠ name := by
    have h1 : ((a ++ tmn :: b).map Node.name) =
        a.map Node.name ++ tmn.name :: b.map Node.name := by simp
    rw [h1] at hnodup
    have h2 := (List.nodup_append.mp hnodup).2.1
    have h3 := (List.nodup_cons.mp h2).1
    intro y hy he
    exact h3 (by
      have hmm : y.name ∈ b.map Node.name := List.mem_map_of_mem Node.name hy
      rwa [he, ← hname] at hmm)
  have hA' : ∀ y ∈ a.map (renameArgs name getName), y.name ≠ name := by
    intro y hy
    obtain ⟨z, hz, rfl⟩ := List.mem_map.mp hy
    simpa [renameArgs_name] using hAname z hz
  have hB' : ∀ y ∈ b.map (renameArgs name getName), y.name ≠ name := by
    intro y hy
    obtain ⟨z, hz, rfl⟩ := List.mem_map.mp hy
    simpa [renameArgs_name] using hBname z hz
  obtain ⟨tN, htN⟩ : ∃ x : Node,
      x = { name := trtName, op := Op.call_function Func.execute_engine,
            args := tmn.args, meta_val := MetaVal.tensors [s0] } := ⟨_, rfl⟩
  obtain ⟨gN, hgN⟩ : ∃ x : Node,
      x = { name := getName, op := Op.call_function Func.getitem,
            args := [trtName], itemIdx := 0,
            meta_val := MetaVal.tensors [s0] } := ⟨_, rfl⟩
  have tNname : tN.name = trtName := by rw [htN]
  have tNop : tN.op = Op.call_function Func.execute_engine := by rw [htN]
  have tNargs : tN.args = tmn.args := by rw [htN]
  have gNname : gN.name = getName := by rw [hgN]
  have gNop : gN.op = Op.call_function Func.getitem := by rw [hgN]
  have gNargs : gN.args = [trtName] := by rw [hgN]
  have gNidx : gN.itemIdx = 0 := by rw [hgN]
  have h1n : name ∉ tN.args := by rw [tNargs]; exact hnoself
  have h2n : name ∉ gN.args := by
    rw [gNargs]
    intro h
    exact hnT (by simpa using h)
  have hTn : tN.name ≠ name := by rw [tNname]; exact Ne.symm hnT
  have hGn : gN.name ≠ name := by rw [gNname]; exact Ne.symm hnG
  have hg' : inline_trt_module (a ++ tmn :: b) name [s0] trtName getName =
      some (a.map (renameArgs name getName) ++ tN :: gN ::
        b.map (renameArgs name getName)) := by
    simp only [inline_trt_module, hfind]
    rw [if_neg hargs]
    have hlen0 : ¬([s0].length = 0) := by simp
    have hlen1 : [s0].length = 1 := by simp
    rw [if_neg hlen0, if_pos hlen1, ← htN, ← hgN]
    rw [insertBefore_split a tmn b tN name hname hAname]
    rw [insertAfter_split a tN (tmn :: b) gN trtName tNname
      (fun y hy => (hfreshT y (hmemA y hy)).1)]
    rw [replaceAllUses_append3 a tN gN tmn b name getName h1n h2n hnoself]
    rw [eraseNode_append2 (a.map (renameArgs name getName)) tN gN tmn
      (b.map (renameArgs name getName)) name hA' hTn hGn hname hB']
  refine ⟨_, hg', ?_, ?_, ?_, ?_, ?_, ?_⟩
  · simp only [List.countP_append, List.countP_cons,
      countP_name_op_eq_zero a name Op.call_module hAname,
      countP_name_op_eq_zero b name Op.call_module hBname,
      countP_name_op_eq_zero _ name Op.call_module hA',
      countP_name_op_eq_zero _ name Op.call_module hB']
    simp [hname, hop, tNname, tNop, gNname, gNop, Ne.symm hnT, Ne.symm hnG]
  · simp only [List.countP_append, List.countP_cons,
      countP_op_pred_map_rename]
    simp [hop, tNop, gNop]
    omega
  · simp only [List.countP_append, List.countP_cons,
      countP_op_pred_map_rename]
    simp [hop, tNop, gNop]
    omega
  · exact ⟨(a.map (renameArgs name getName)).length, tN, gN,
      get?_append_cons _ _ _, get?_append_cons_succ _ _ _ _,
      tNname, tNop, gNname, gNop, gNargs, gNidx⟩
  · intro m hm
    rcases List.mem_append.mp hm with hm | hm
    · obtain ⟨z, hz, rfl⟩ := List.mem_map.mp hm
      exact not_mem_args_rename_old name getName z (Ne.symm hnG)
    · rcases List.mem_cons.mp hm with rfl | hm
      · exact h1n
      rcases List.mem_cons.mp hm with rfl | hm
      · exact h2n
      · obtain ⟨z, hz, rfl⟩ := List.mem_map.mp hm
        exact not_mem_args_rename_old name getName z (Ne.symm hnG)
  · have hfa : ∀ m ∈ a, getName ∉ m.args := fun m hm =>
      (hfreshG m (hmemA m hm)).2
    have hfb : ∀ m ∈ b, getName ∉ m.args := fun m hm =>
      (hfreshG m (hmemB m hm)).2
    have h1 : getName ∉ tN.args := by
      rw [tNargs]
      exact (hfreshG tmn htmnmem).2
    have h2 : getName ∉ gN.args := by
      rw [gNargs]
      intro h
      have hx : getName = trtName := by simpa using h
      exact hTG hx.symm
    rw [usersOf_append,
      usersOf_cons_neg tN (gN :: b.map (renameArgs name getName)) getName h1,
      usersOf_cons_neg gN (b.map (renameArgs name getName)) getName h2,
      usersOf_map_rename a name getName hfa,
      usersOf_map_rename b name getName hfb,
      usersOf_append, usersOf_cons_neg tmn b name hnoself,
      List.map_append, List.map_append, map_name_map_rename,
      map_name_map_rename]

/-- Witness for C4 at the concrete graph `c4_graph` with output shape
(2, 3). -/
theorem inline_trt_single_output_witness :
    ∃ g', inline_trt_module c4_graph "m" [[2, 3]] "t0" "g0" = some g' ∧
      g'.countP (fun m => decide (m.name = "m" ∧ m.op = Op.call_module)) + 1 =
        c4_graph.countP
          (fun m => decide (m.name = "m" ∧ m.op = Op.call_module)) ∧
      g'.countP (fun m => decide (m.op = Op.call_function Func.execute_engine)) =
        c4_graph.countP
          (fun m => decide (m.op = Op.call_function Func.execute_engine)) + 1 ∧
      g'.countP (fun m => decide (m.op = Op.call_function Func.getitem)) =
        c4_graph.countP
          (fun m => decide (m.op = Op.call_function Func.getitem)) + 1 ∧
      (∃ i tn gn, g'.get? i = some tn ∧ g'.get? (i + 1) = some gn ∧
        tn.name = "t0" ∧ tn.op = Op.call_function Func.execute_engine ∧
        gn.name = "g0" ∧ gn.op = Op.call_function Func.getitem ∧
        gn.args = ["t0"] ∧ gn.itemIdx = 0) ∧
      (∀ m ∈ g', "m" ∉ m.args) ∧
      (usersOf g' "g0").map Node.name = (usersOf c4_graph "m").map Node.name :=
  inline_trt_single_output c4_graph "m" [2, 3] "t0" "g0" c4_tmn
    (by decide) (by decide) (by decide) (by decide) (by decide) (by decide)
    (by decide) (by decide)

theorem annotate_of_mem (trt : String) (shapes : List (List Nat)) (m : Node)
    (h : trt ∈ m.args) :
    annotate trt shapes m =
      { m with meta_val := MetaVal.tensor (shapes.getD m.itemIdx []) } := by
  unfold annotate
  rw [if_pos h]

theorem annotate_of_not_mem (trt : String) (shapes : List (List Nat))
    (m : Node) (h : trt ∉ m.args) : annotate trt shapes m = m := by
  unfold annotate
  rw [if_neg h]

theorem annotate_name (trt : String) (shapes : List (List Nat)) (m : Node) :
    (annotate trt shapes m).name = m.name := by
  unfold annotate
  split <;> rfl

theorem annotate_op (trt : String) (shapes : List (List Nat)) (m : Node) :
    (annotate trt shapes m).op = m.op := by
  unfold annotate
  split <;> rfl

theorem annotate_args (trt : String) (shapes : List (List Nat)) (m : Node) :
    (annotate trt shapes m).args = m.args := by
  unfold annotate
  split <;> rfl

theorem annotate_itemIdx (trt : String) (shapes : List (List Nat))
    (m : Node) : (annotate trt shapes m).itemIdx = m.itemIdx := by
  unfold annotate
  split <;> rfl

theorem replaceAllUses_append2 (a : List Node) (n1 t : Node) (b : List Node)
    (old nu : String) (h1 : old ∉ n1.args) (h3 : old ∉ t.args) :
    replaceAllUses (a ++ n1 :: t :: b) old nu =
      a.map (renameArgs old nu) ++ n1 :: t :: b.map (renameArgs old nu) := by
  simp only [replaceAllUses, List.map_append, List.map_cons,
    renameArgs_eq_self old nu n1 h1, renameArgs_eq_self old nu t h3]

theorem eraseNode_append1 (A : List Node) (n1 t : Node) (B : List Node)
    (x : String) (hA : ∀ y ∈ A, y.name ≠ x) (h1 : n1.name ≠ x)
    (ht : t.name = x) (hB : ∀ y ∈ B, y.name ≠ x) :
    eraseNode (A ++ n1 :: t :: B) x = A ++ n1 :: B := by
  unfold eraseNode
  have hAf : A.filter (fun m => decide (m.name ≠ x)) = A :=
    List.filter_eq_self.mpr (fun m hm => by simpa using hA m hm)
  rw [List.filter_append, hAf]
  simp [List.filter_cons, h1, ht]
  exact fun a ha => hB a ha

theorem usersOf_map_args_preserving (f : Node → Node)
    (hf : ∀ m, (f m).args = m.args) (l : List Node) (t : String) :
    usersOf (l.map f) t = (usersOf l t).map f := by
  induction l with
  | nil => rfl
  | cons m rest ih =>
    by_cases hm : t ∈ m.args
    · rw [List.map_cons, usersOf_cons_pos _ _ _ (by rw [hf m]; exact hm),
        usersOf_cons_pos m rest t hm, List.map_cons, ih]
    · rw [List.map_cons, usersOf_cons_neg _ _ _ (by rw [hf m]; exact hm),
        usersOf_cons_neg m rest t hm, ih]

theorem map_name_map_of_preserving (f : Node → Node)
    (hf : ∀ m, (f m).name = m.name) (l : List Node) :
    (l.map f).map Node.name = l.map Node.name := by
  induction l with
  | nil => rfl
  | cons m rest ih => simp [hf m, ih]

theorem backfill_go_eq (trt : String) (shapes : List (List Nat)) :
    ∀ (l : List Node) (c : Nat),
      (∀ k m, (usersOf l trt).get? k = some m →
        m.itemIdx = c + k ∧ c + k < shapes.length) →
      backfill_go trt shapes l c = some (l.map (annotate trt shapes)) := by
  intro l
  induction l with
  | nil => intro c _; rfl
  | cons m rest ih =>
    intro c hal
    by_cases hm : trt ∈ m.args
    · have h0 := hal 0 m (by rw [usersOf_cons_pos m rest trt hm]; rfl)
      obtain ⟨h01, h02⟩ := h0
      have hidx : m.itemIdx = c := by omega
      have hlt : c < shapes.length := by omega
      have hget : shapes.get? c = some (shapes.getD m.itemIdx []) := by
        rw [hidx]
        exact get?_getD shapes c [] hlt
      have hrest : ∀ k m', (usersOf rest trt).get? k = some m' →
          m'.itemIdx = (c + 1) + k ∧ (c + 1) + k < shapes.length := by
        intro k m' hk
        have hh := hal (k + 1) m' (by
          rw [usersOf_cons_pos m rest trt hm]
          simpa using hk)
        obtain ⟨hh1, hh2⟩ := hh
        exact ⟨by omega, by omega⟩
      simp only [backfill_go, if_pos hm, hget]
      rw [ih (c + 1) hrest, List.map_cons, annotate_of_mem trt shapes m hm]
      rfl
    · have hrest : ∀ k m', (usersOf rest trt).get? k = some m' →
          m'.itemIdx = c + k ∧ c + k < shapes.length := by
        intro k m' hk
        exact hal k m' (by rw [usersOf_cons_neg m rest trt hm]; exact hk)
      simp only [backfill_go, if_neg hm]
      rw [ih c hrest, List.map_cons, annotate_of_not_mem trt shapes m hm]
      rfl

/-- Claim C2: inlining an accelerated submodule with more than one
declared output redirects every user of the old call-module node to the
new engine-call node (no reference to the old node survives, and the
engine node's users are by name exactly the old node's users); every
pre-existing index-access node with index i receives as its metadata the
engine node's metadata entry for output i; and the engine node carries a
metadata list whose length equals the declared output count.  The
partitioner invariant that the old node's users are the getitem nodes in
index order, one per declared output, is the hypothesis (spec: a
count mismatch is an upstream programming error, not handled here). -/
theorem inline_trt_multi_output (g : Graph) (name : String)
    (shapes : List (List Nat)) (trtName getName : String) (tmn : Node)
    (hfind : g.find? (fun m => decide (m.name = name)) = some tmn)
    (hargs : tmn.args ≠ [])
    (hmulti : 2 ≤ shapes.length)
    (hnodup : (g.map Node.name).Nodup)
    (hfreshT : ∀ m ∈ g, m.name ≠ trtName ∧ trtName ∉ m.args)
    (hnoself : name ∉ tmn.args)
    (husers : ∀ p ∈ (usersOf g name).enum,
      p.2.op = Op.call_function Func.getitem ∧ p.2.itemIdx = p.1)
    (hcount : (usersOf g name).length = shapes.length) :
    ∃ g', inline_trt_module g name shapes trtName getName = some g' ∧
      (∃ tn ∈ g', tn.name = trtName ∧
        tn.op = Op.call_function Func.execute_engine ∧
        tn.meta_val = MetaVal.tensors shapes ∧
        tn.meta_val.listLen = shapes.length) ∧
      (∀ m ∈ g', name ∉ m.args) ∧
      (∀ m ∈ g', trtName ∈ m.args →
        m.op = Op.call_function Func.getitem ∧ m.itemIdx < shapes.length ∧
        m.meta_val = MetaVal.tensor (shapes.getD m.itemIdx [])) ∧
      (usersOf g' trtName).map Node.name = (usersOf g name).map Node.name := by
  obtain ⟨a, b, hg, hA, hX⟩ := find?_split hfind
  subst hg
  have hname : tmn.name = name := by simpa using hX
  have hAname : ∀ y ∈ a, y.name ≠ name := fun y hy => by simpa using hA y hy
  have hmemA : ∀ y ∈ a, y ∈ a ++ tmn :: b := fun y hy =>
    List.mem_append_left _ hy
  have hmemB : ∀ y ∈ b, y ∈ a ++ tmn :: b := fun y hy =>
    List.mem_append_right _ (List.mem_cons_of_mem _ hy)
  have htmnmem : tmn ∈ a ++ tmn :: b :=
    List.mem_append_right _ (List.mem_cons_self _ _)
  have hnT : name ≠ trtName := hname ▸ (hfreshT tmn htmnmem).1
  have hBname : ∀ y ∈ b, y.name ≠ name := by
    have h1 : ((a ++ tmn :: b).map Node.name) =
        a.map Node.name ++ tmn.name :: b.map Node.name := by simp
    rw [h1] at hnodup
    have h2 := (List.nodup_append.mp hnodup).2.1
    have h3 := (List.nodup_cons.mp h2).1
    intro y hy he
    exact h3 (by
      have hmm : y.name ∈ b.map Node.name := List.mem_map_of_mem Node.name hy
      rwa [he, ← hname] at hmm)
  obtain ⟨tN, htN⟩ : ∃ x : Node,
      x = { name := trtName, op := Op.call_function Func.execute_engine,
            args := tmn.args, meta_val := MetaVal.tensors shapes } := ⟨_, rfl⟩
  have tNname : tN.name = trtName := by rw [htN]
  have tNop : tN.op = Op.call_function Func.execute_engine := by rw [htN]
  have tNargs : tN.args = tmn.args := by rw [htN]
  have tNmeta : tN.meta_val = MetaVal.tensors shapes := by rw [htN]
  have h1n : name ∉ tN.args := by rw [tNargs]; exact hnoself
  have hTn : tN.name ≠ name := by rw [tNname]; exact Ne.symm hnT
  have htfreshtN : trtName ∉ tN.args := by
    rw [tNargs]
    exact (hfreshT tmn htmnmem).2
  have hfa : ∀ m ∈ a, trtName ∉ m.args := fun m hm =>
    (hfreshT m (hmemA m hm)).2
  have hfb : ∀ m ∈ b, trtName ∉ m.args := fun m hm =>
    (hfreshT m (hmemB m hm)).2
  have hu2 : usersOf (a.map (renameArgs name trtName) ++ tN :: tmn ::
      b.map (renameArgs name trtName)) trtName =
      (usersOf (a ++ tmn :: b) name).map (renameArgs name trtName) := by
    rw [usersOf_append,
      usersOf_cons_neg tN (tmn :: b.map (renameArgs name trtName)) trtName
        htfreshtN,
      usersOf_cons_neg tmn (b.map (renameArgs name trtName)) trtName
        ((hfreshT tmn htmnmem).2),
      usersOf_map_rename a name trtName hfa,
      usersOf_map_rename b name trtName hfb,
      usersOf_append, usersOf_cons_neg tmn b name hnoself, List.map_append]
  have hbackhyp : ∀ k m', (usersOf (a.map (renameArgs name trtName) ++
      tN :: tmn :: b.map (renameArgs name trtName)) trtName).get? k =
        some m' → m'.itemIdx = 0 + k ∧ 0 + k < shapes.length := by
    intro k m' hk
    rw [hu2, List.get?_map] at hk
    cases hz : (usersOf (a ++ tmn :: b) name).get? k with
    | none => rw [hz] at hk; exact Option.noConfusion hk
    | some z =>
      rw [hz] at hk
      obtain rfl := Option.some.inj hk
      have hlt : k < (usersOf (a ++ tmn :: b) name).length :=
        lt_of_get?_eq_some _ k z hz
      have hen := husers (k, z) (get?_mem_enum _ k z hz)
      refine ⟨?_, by omega⟩
      rw [renameArgs_itemIdx]
      simpa using hen.2
  have hbackfill := backfill_go_eq trtName shapes
    (a.map (renameArgs name trtName) ++ tN :: tmn ::
      b.map (renameArgs name trtName)) 0 hbackhyp
  have hg' : inline_trt_module (a ++ tmn :: b) name shapes trtName getName =
      some (((a.map (renameArgs name trtName)).map (annotate trtName shapes))
        ++ tN :: ((b.map (renameArgs name trtName)).map
          (annotate trtName shapes))) := by
    simp only [inline_trt_module, hfind]
    rw [if_neg hargs]
    have hlen0 : ¬(shapes.length = 0) := by omega
    have hlen1 : ¬(shapes.length = 1) := by omega
    rw [if_neg hlen0, if_neg hlen1, ← htN]
    rw [insertBefore_split a tmn b tN name hname hAname]
    rw [replaceAllUses_append2 a tN tmn b name trtName h1n hnoself]
    rw [hbackfill]
    have herase : eraseNode (((a.map (renameArgs name trtName) ++ tN :: tmn ::
        b.map (renameArgs name trtName))).map (annotate trtName shapes))
        name =
        ((a.map (renameArgs name trtName)).map (annotate trtName shapes)) ++
          tN :: ((b.map (renameArgs name trtName)).map
            (annotate trtName shapes)) := by
      rw [List.map_append, List.map_cons, List.map_cons,
        annotate_of_not_mem trtName shapes tN htfreshtN,
        annotate_of_not_mem trtName shapes tmn ((hfreshT tmn htmnmem).2)]
      refine eraseNode_append1 _ tN tmn _ name ?_ hTn hname ?_
      · intro y hy
        obtain ⟨w, hw, rfl⟩ := List.mem_map.mp hy
        obtain ⟨z, hz, rfl⟩ := List.mem_map.mp hw
        rw [annotate_name, renameArgs_name]
        exact hAname z hz
      · intro y hy
        obtain ⟨w, hw, rfl⟩ := List.mem_map.mp hy
        obtain ⟨z, hz, rfl⟩ := List.mem_map.mp hw
        rw [annotate_name, renameArgs_name]
        exact hBname z hz
    show some (eraseNode ((a.map (renameArgs name trtName) ++ tN :: tmn ::
        b.map (renameArgs name trtName)).map (annotate trtName shapes))
          name) =
      some (((a.map (renameArgs name trtName)).map (annotate trtName shapes))
        ++ tN :: ((b.map (renameArgs name trtName)).map
          (annotate trtName shapes)))
    rw [herase]
  refine ⟨_, hg', ?_, ?_, ?_, ?_⟩
  · refine ⟨tN, List.mem_append_right _ (List.mem_cons_self _ _),
      tNname, tNop, tNmeta, ?_⟩
    rw [tNmeta]
    rfl
  · intro m hm
    rcases List.mem_append.mp hm with hm | hm
    · obtain ⟨w, hw, rfl⟩ := List.mem_map.mp hm
      obtain ⟨z, hz, rfl⟩ := List.mem_map.mp hw
      rw [annotate_args]
      exact not_mem_args_rename_old name trtName z (Ne.symm hnT)
    · rcases List.mem_cons.mp hm with rfl | hm
      · exact h1n
      · obtain ⟨w, hw, rfl⟩ := List.mem_map.mp hm
        obtain ⟨z, hz, rfl⟩ := List.mem_map.mp hw
        rw [annotate_args]
        exact not_mem_args_rename_old name trtName z (Ne.symm hnT)
  · intro m hm hmem
    have key : ∀ z, z ∈ a ++ tmn :: b → name ∈ z.args →
        m = annotate trtName shapes (renameArgs name trtName z) →
        m.op = Op.call_function Func.getitem ∧ m.itemIdx < shapes.length ∧
        m.meta_val = MetaVal.tensor (shapes.getD m.itemIdx []) := by
      intro z hzmem hzarg hmz
      have hzu : z ∈ usersOf (a ++ tmn :: b) name :=
        List.mem_filter.mpr ⟨hzmem, by simpa using hzarg⟩
      obtain ⟨k, hk⟩ := List.get?_of_mem hzu
      have hen := husers (k, z) (get?_mem_enum _ k z hk)
      have hklt : k < shapes.length := by
        have := lt_of_get?_eq_some _ k z hk
        omega
      have hzfire : trtName ∈ (renameArgs name trtName z).args := by
        rw [mem_args_rename_nu name trtName z
          ((hfreshT z hzmem).2)]
        exact hzarg
      refine ⟨?_, ?_, ?_⟩
      · rw [hmz, annotate_op, renameArgs_op]
        exact hen.1
      · rw [hmz, annotate_itemIdx, renameArgs_itemIdx, hen.2]
        exact hklt
      · rw [hmz, annotate_of_mem trtName shapes _ hzfire]
    rcases List.mem_append.mp hm with hm | hm
    · obtain ⟨w, hw, rfl⟩ := List.mem_map.mp hm
      obtain ⟨z, hz, rfl⟩ := List.mem_map.mp hw
      have hzarg : name ∈ z.args := by
        rw [annotate_args] at hmem
        exact (mem_args_rename_nu name trtName z
          ((hfreshT z (hmemA z hz)).2)).mp hmem
      exact key z (hmemA z hz) hzarg rfl
    · rcases List.mem_cons.mp hm with rfl | hm
      · exact absurd hmem htfreshtN
      · obtain ⟨w, hw, rfl⟩ := List.mem_map.mp hm
        obtain ⟨z, hz, rfl⟩ := List.mem_map.mp hw
        have hzarg : name ∈ z.args := by
          rw [annotate_args] at hmem
          exact (mem_args_rename_nu name trtName z
            ((hfreshT z (hmemB z hz)).2)).mp hmem
        exact key z (hmemB z hz) hzarg rfl
  · rw [usersOf_append,
      usersOf_cons_neg tN ((b.map (renameArgs name trtName)).map
        (annotate trtName shapes)) trtName htfreshtN,
      usersOf_map_args_preserving (annotate trtName shapes)
        (annotate_args trtName shapes) (a.map (renameArgs name trtName))
        trtName,
      usersOf_map_args_preserving (annotate trtName shapes)
        (annotate_args trtName shapes) (b.map (renameArgs name trtName))
        trtName,
      usersOf_map_rename a name trtName hfa,
      usersOf_map_rename b name trtName hfb,
      usersOf_append, usersOf_cons_neg tmn b name hnoself,
      List.map_append, List.map_append]
    rw [map_name_map_of_preserving (annotate trtName shapes)
        (annotate_name trtName shapes),
      map_name_map_of_preserving (annotate trtName shapes)
        (annotate_name trtName shapes),
      map_name_map_rename, map_name_map_rename]

/-- Witness for C2 at the concrete graph `c2_graph` with declared outputs
[(2, 3), (4,)]: the engine metadata list has length 2, the getitem at
index 0 gets shape (2, 3) and the one at index 1 gets shape (4,). -/
theorem inline_trt_multi_output_witness :
    ∃ g', inline_trt_module c2_graph "m" [[2, 3], [4]] "t0" "g0" = some g' ∧
      (∃ tn ∈ g', tn.name = "t0" ∧
        tn.op = Op.call_function Func.execute_engine ∧
        tn.meta_val = MetaVal.tensors [[2, 3], [4]] ∧
        tn.meta_val.listLen = ([[2, 3], [4]] : List (List Nat)).length) ∧
      (∀ m ∈ g', "m" ∉ m.args) ∧
      (∀ m ∈ g', "t0" ∈ m.args →
        m.op = Op.call_function Func.getitem ∧
        m.itemIdx < ([[2, 3], [4]] : List (List Nat)).length ∧
        m.meta_val =
          MetaVal.tensor (([[2, 3], [4]] : List (List Nat)).getD m.itemIdx [])) ∧
      (usersOf g' "t0").map Node.name = (usersOf c2_graph "m").map Node.name :=
  inline_trt_multi_output c2_graph "m" [[2, 3], [4]] "t0" "g0" c2_tmn
    (by decide) (by decide) (by decide) (by decide) (by decide) (by decide)
    (by decide) (by decide)

theorem length_filter_name_mem (gm : Graph) (S : List String) :
    (gm.filter (fun n => decide (n.name ∈ S))).length =
      ((gm.map Node.name).filter (fun x => decide (x ∈ S))).length := by
  induction gm with
  | nil => rfl
  | cons m rest ih =>
    by_cases hm : m.name ∈ S <;> simp [List.filter_cons, hm, ih]

theorem length_filter_mem_of_nodup (L S : List String) (hL : L.Nodup)
    (hS : S.Nodup) (hsub : ∀ x ∈ S, x ∈ L) :
    (L.filter (fun x => decide (x ∈ S))).length = S.length := by
  have hF : (L.filter (fun x => decide (x ∈ S))).Nodup := hL.filter _
  have hmem : ∀ x, x ∈ L.filter (fun x => decide (x ∈ S)) ↔ x ∈ S := by
    intro x
    constructor
    · intro hx
      have := List.mem_filter.mp hx
      simpa using this.2
    · intro hx
      exact List.mem_filter.mpr ⟨hsub x hx, by simpa using hx⟩
  calc (L.filter (fun x => decide (x ∈ S))).length
      = (L.filter (fun x => decide (x ∈ S))).toFinset.card :=
        (List.toFinset_card_of_nodup hF).symm
    _ = S.toFinset.card := by
        congr 1
        ext x
        simp only [List.mem_toFinset]
        exact hmem x
    _ = S.length := List.toFinset_card_of_nodup hS

theorem countP_insertAllBefore (g : Graph) (pos : String) (xs : List Node)
    (p : Node → Bool) :
    (insertAllBefore g pos xs).countP p = g.countP p + xs.countP p := by
  induction g with
  | nil => simp [insertAllBefore]
  | cons n rest ih =>
    by_cases hn : n.name = pos
    · simp only [insertAllBefore, if_pos hn, List.countP_append,
        List.countP_cons]
      omega
    · simp only [insertAllBefore, if_neg hn, List.countP_cons, ih]
      omega

theorem mem_insertAllBefore (g : Graph) (pos : String) (xs : List Node)
    (m : Node) : m ∈ insertAllBefore g pos xs ↔ m ∈ g ∨ m ∈ xs := by
  induction g with
  | nil => simp [insertAllBefore]
  | cons n rest ih =>
    by_cases hn : n.name = pos
    · simp only [insertAllBefore, if_pos hn, List.mem_append, List.mem_cons]
      tauto
    · simp only [insertAllBefore, if_neg hn, List.mem_cons, ih]
      tauto

theorem countP_eraseNode_of (g : Graph) (x : String) (p : Node → Bool)
    (h : ∀ m ∈ g, p m → m.name ≠ x) :
    (eraseNode g x).countP p = g.countP p := by
  induction g with
  | nil => rfl
  | cons m rest ih =>
    have ih' := ih (fun y hy hp => h y (List.mem_cons_of_mem m hy) hp)
    by_cases hm : m.name = x
    · have hpm : p m = false := by
        cases hpm : p m with
        | false => rfl
        | true => exact absurd hm (h m (List.mem_cons_self m rest) hpm)
      have e1 : eraseNode (m :: rest) x = eraseNode rest x := by
        simp [eraseNode, List.filter_cons, hm]
      rw [e1, ih', List.countP_cons, hpm]
      simp
    · have e1 : eraseNode (m :: rest) x = m :: eraseNode rest x := by
        simp [eraseNode, List.filter_cons, hm]
      rw [e1, List.countP_cons, List.countP_cons, ih']

theorem countP_copied_placeholder (sub : Graph) (names : List String)
    (vm : List (String × String))
    (hnames : ∀ z ∈ sub, z.op = Op.placeholder → z.name ∈ names) :
    ((sub.filter (fun n => decide (n.op ≠ Op.output ∧ n.name ∉ names))).map
      (fun n => { n with args := n.args.map (lookupOr vm) })).countP
        (fun m => decide (m.op = Op.placeholder)) = 0 := by
  rw [List.countP_eq_zero]
  intro m hm
  obtain ⟨z, hz, rfl⟩ := List.mem_map.mp hm
  obtain ⟨hz1, hz2⟩ := List.mem_filter.mp hz
  have hz2' : z.op ≠ Op.output ∧ z.name ∉ names := by simpa using hz2
  intro hpm
  have hzop : z.op = Op.placeholder := by simpa using hpm
  exact hz2'.2 (hnames z hz1 hzop)

/-- Claim C7: for a host-executed submodule whose input placeholders all
share names with existing parent-graph nodes, get_duplicate_nodes finds
equally many duplicates on both sides (the fatal assertion of
inline_torch_modules holds), and inlining the submodule creates no new
placeholder node: the parent's total placeholder count is unchanged.
Name-uniqueness on the parent graph and on the submodule's placeholders
is the fx invariant. -/
theorem inline_torch_preserves_placeholders (gm sub : Graph)
    (gmNodeName : String) (gmNode : Node)
    (hfind : gm.find? (fun m => decide (m.name = gmNodeName)) = some gmNode)
    (hop : gmNode.op = Op.call_module)
    (hnodup : (gm.map Node.name).Nodup)
    (hsubnodup : ((sub.filter
      (fun n => decide (n.op = Op.placeholder))).map Node.name).Nodup)
    (halldup : ∀ n ∈ sub, n.op = Op.placeholder →
      n.name ∈ gm.map Node.name)
    (hph : ∃ n ∈ sub, n.op = Op.placeholder)
    (hout : ∃ o r, sub.find? (fun n => decide (n.op = Op.output)) = some o ∧
      o.args.head? = some r) :
    (get_duplicate_nodes gm sub).1.length =
      (get_duplicate_nodes gm sub).2.length ∧
    ∃ gm', inline_torch_module gm sub gmNodeName = some gm' ∧
      gm'.countP (fun m => decide (m.op = Op.placeholder)) =
        gm.countP (fun m => decide (m.op = Op.placeholder)) := by
  obtain ⟨o, r, hfo, hor⟩ := hout
  obtain ⟨A, B, hgm, hA, hX⟩ := find?_split hfind
  subst hgm
  have hgname : gmNode.name = gmNodeName := by simpa using hX
  have hAname : ∀ y ∈ A, y.name ≠ gmNodeName := fun y hy => by
    simpa using hA y hy
  have hBname : ∀ y ∈ B, y.name ≠ gmNodeName := by
    have h1 : ((A ++ gmNode :: B).map Node.name) =
        A.map Node.name ++ gmNode.name :: B.map Node.name := by simp
    have hnodup' := hnodup
    rw [h1] at hnodup'
    have h2 := (List.nodup_append.mp hnodup').2.1
    have h3 := (List.nodup_cons.mp h2).1
    intro y hy he
    exact h3 (by
      have hmm : y.name ∈ B.map Node.name := List.mem_map_of_mem Node.name hy
      rwa [he, ← hgname] at hmm)
  have hphname : ∀ m ∈ A ++ gmNode :: B, m.op = Op.placeholder →
      m.name ≠ gmNodeName := by
    intro m hm hopm
    rcases List.mem_append.mp hm with h | h
    · exact hAname m h
    rcases List.mem_cons.mp h with rfl | h
    · rw [hopm] at hop
      exact absurd hop (by simp)
    · exact hBname m h
  have hdup1 : (get_duplicate_nodes (A ++ gmNode :: B) sub).1 =
      sub.filter (fun n => decide (n.op = Op.placeholder)) := by
    show (sub.filter (fun n => decide (n.op = Op.placeholder))).filter
        (fun n => decide (n.name ∈ (A ++ gmNode :: B).map Node.name)) =
      sub.filter (fun n => decide (n.op = Op.placeholder))
    apply List.filter_eq_self.mpr
    intro n hn
    obtain ⟨hn1, hn2⟩ := List.mem_filter.mp hn
    simpa using halldup n hn1 (by simpa using hn2)
  have hsubset : ∀ x ∈ (sub.filter
      (fun n => decide (n.op = Op.placeholder))).map Node.name,
      x ∈ (A ++ gmNode :: B).map Node.name := by
    intro x hx
    obtain ⟨n, hn, rfl⟩ := List.mem_map.mp hx
    obtain ⟨hn1, hn2⟩ := List.mem_filter.mp hn
    exact halldup n hn1 (by simpa using hn2)
  have hdup2len : (get_duplicate_nodes (A ++ gmNode :: B) sub).2.length =
      ((sub.filter
        (fun n => decide (n.op = Op.placeholder))).map Node.name).length := by
    show ((A ++ gmNode :: B).filter (fun n => decide (n.name ∈
      (sub.filter (fun n => decide (n.op = Op.placeholder))).map
        Node.name))).length = _
    rw [length_filter_name_mem]
    exact length_filter_mem_of_nodup _ _ hnodup hsubnodup hsubset
  have heq : (get_duplicate_nodes (A ++ gmNode :: B) sub).1.length =
      (get_duplicate_nodes (A ++ gmNode :: B) sub).2.length := by
    rw [hdup1, hdup2len, List.length_map]
  have hne0 : ¬((get_duplicate_nodes (A ++ gmNode :: B) sub).1.length = 0) := by
    rw [hdup1]
    obtain ⟨n, hn, hnp⟩ := hph
    have hmem : n ∈ sub.filter (fun n => decide (n.op = Op.placeholder)) :=
      List.mem_filter.mpr ⟨hn, by simp [hnp]⟩
    intro hlen
    rw [List.length_eq_zero] at hlen
    rw [hlen] at hmem
    exact List.not_mem_nil n hmem
  have hnames : ∀ z ∈ sub, z.op = Op.placeholder →
      z.name ∈ (get_duplicate_nodes (A ++ gmNode :: B) sub).1.map
        Node.name := by
    intro z hz hzp
    rw [hdup1]
    exact List.mem_map_of_mem Node.name
      (List.mem_filter.mpr ⟨hz, by simp [hzp]⟩)
  refine ⟨heq, ?_⟩
  simp only [inline_torch_module, hfind, hfo, hor]
  rw [if_pos heq, if_neg hne0]
  refine ⟨_, rfl, ?_⟩
  refine Eq.trans (countP_eraseNode_of _ _ _ ?hsafe) ?hrest
  case hsafe =>
    intro m hm hpm
    simp only [replaceAllUses] at hm
    obtain ⟨z, hz, rfl⟩ := List.mem_map.mp hm
    rw [renameArgs_name]
    have hzop : z.op = Op.placeholder := by
      have hro := of_decide_eq_true hpm
      rwa [renameArgs_op] at hro
    rcases (mem_insertAllBefore _ _ _ z).mp hz with h | h
    · exact hphname z h hzop
    · exfalso
      obtain ⟨w, hw, rfl⟩ := List.mem_map.mp h
      obtain ⟨hw1, hw2⟩ := List.mem_filter.mp hw
      have hw2' : w.op ≠ Op.output ∧ w.name ∉
          (get_duplicate_nodes (A ++ gmNode :: B) sub).1.map Node.name := by
        simpa using hw2
      have hwop : w.op = Op.placeholder := hzop
      exact hw2'.2 (hnames w hw1 hwop)
  case hrest =>
    simp only [replaceAllUses]
    rw [countP_op_pred_map_rename, countP_insertAllBefore,
      countP_copied_placeholder sub _ _ hnames]
    simp

/-- Witness for C7 at the concrete parent `c7_gm` and submodule `c7_sub`
whose sole input placeholder "x" duplicates the parent's placeholder. -/
theorem inline_torch_preserves_placeholders_witness :
    (get_duplicate_nodes c7_gm c7_sub).1.length =
      (get_duplicate_nodes c7_gm c7_sub).2.length ∧
    ∃ gm', inline_torch_module c7_gm c7_sub "gpu1" = some gm' ∧
      gm'.countP (fun m => decide (m.op = Op.placeholder)) =
        c7_gm.countP (fun m => decide (m.op = Op.placeholder)) :=
  inline_torch_preserves_placeholders c7_gm c7_sub "gpu1" c7_gmNode
    (by decide) (by decide) (by decide) (by decide) (by decide) (by decide)
    ⟨{ name := "o", op := Op.output, args := ["add"] }, "add",
      by decide, by decide⟩

/-- Witness for C3 at the concrete parameter-targeting node `c3_node`,
with "b" a buffer name. -/
theorem lift_classify_probe_order_witness :
    classify ["p"] ["b"] c3_node.target =
      probe_classify ["p"] ["b"] c3_node.target ∧
    (c3_node.target ∈ ["p"] →
      classify ["p"] ["b"] c3_node.target = InputKind.PARAMETER) ∧
    ∃ res, lift ["p"] ["p"] ["b"] [c3_node] [] 0 = Except.ok res ∧
      ({ kind := probe_classify ["p"] ["b"] c3_node.target,
         argName := c3_node.target,
         target := some c3_node.target } : InputSpec) ∈ res :=
  lift_classify_probe_order ["p"] ["p"] ["b"] [c3_node] [] c3_node
    (by decide) (by decide) (by decide) (by decide)

end TRT
